import Mathlib

/-!
Verification of the test-orchestration engine in `run-tests.js`.

The definitions below are a shallow embedding of the orchestration logic:
the group partitioner (contiguous slicing and greedy load balancing), the
retry and recovery loop, the skip-retry manifest matching, the exit-code
logic, the timing recorder, and a small-step semantics for the semaphore
based concurrency scheduler and output aggregator.  Durations (JavaScript
floating point numbers) are modelled as rationals; machine strings are
modelled as Lean strings with explicit character-list helpers so that all
definitions evaluate inside the kernel.
-/

namespace RunTests

/-! ## String helpers (character-list based, kernel-evaluable) -/

/-- Whether `needle` occurs at the start of `hay` (JS `String.prototype.startsWith`). -/
def listIsPrefixOf : List Char → List Char → Bool
  | [], _ => true
  | _ :: _, [] => false
  | a :: as, b :: bs => a == b && listIsPrefixOf as bs

/-- Whether `needle` occurs contiguously anywhere inside `hay`
(JS `String.prototype.includes`). -/
def listIsInfixOf (needle : List Char) : List Char → Bool
  | [] => listIsPrefixOf needle []
  | b :: bs => listIsPrefixOf needle (b :: bs) || listIsInfixOf needle bs

/-- JS `hay.includes(needle)`: `needle` is a contiguous substring of `hay`. -/
def strIncludes (hay needle : String) : Bool :=
  listIsInfixOf needle.toList hay.toList

/-- JS `s.startsWith(p)`. -/
def strStartsWith (s p : String) : Bool :=
  listIsPrefixOf p.toList s.toList

/-- JS `s.endsWith(p)`. -/
def strEndsWith (s p : String) : Bool :=
  listIsPrefixOf p.toList.reverse s.toList.reverse

/-- The characters strictly before the last `/` of the list, or `none` when the
list has no `/`.  Used to model Node `path.dirname` on already-normalized
slash-separated paths (the only paths the runner produces). -/
def dropLastComponent : List Char → Option (List Char)
  | [] => none
  | c :: cs =>
    match dropLastComponent cs with
    | some rest => some (c :: rest)
    | none => if c == '/' then some [] else none

/-- Node `path.dirname` restricted to normalized slash-separated paths without a
trailing separator: everything before the last `/`, with `.` for slash-free
names and `/` for a file at the root. -/
def posixDirname (p : String) : String :=
  match dropLastComponent p.toList with
  | some [] => "/"
  | some cs => String.mk cs
  | none => "."

/-! ## Group partitioner (run-tests.js lines 228-271)

With previous timings present the runner scans `testNames` in discovered
order keeping one accumulated time per group (`groups` / `groupTimes`) and
pushes each name onto the group whose accumulated time is smallest, adding
`prevTimings[testName] || 1` to that group's total.  The lazily-created group
slots (`if (!groups[i]) { groups[i] = []; groupTimes[i] = 0 }`) are modelled
by eager initialization with the same values, which is observationally
identical because a lazily created slot is created before it is read in the
same iteration.  Without timings the runner takes the contiguous slice
`testNames.slice(offset, offset + numPerGroup)`. -/

/-- `prevTimings[testName] || 1`: the recorded duration, except that an absent
entry — and, because `0` is falsy in JS, a recorded duration of `0` — yields
the default `1`. -/
def lookupDur (prevTimings : String → Option ℚ) (name : String) : ℚ :=
  match prevTimings name with
  | some d => if d = 0 then 1 else d
  | none => 1

/-- The linear scan of `groupTimes` from index 1 keeping the strictly smallest
time seen so far (`if (time < smallestGroup)`), starting from index 0.
Strict comparison means the lowest index wins all ties. -/
def smallestIdxAux : List ℚ → ℚ → Nat → Nat → Nat
  | [], _, _, best => best
  | t :: rest, cur, i, best =>
    if t < cur then smallestIdxAux rest t (i + 1) i
    else smallestIdxAux rest cur (i + 1) best

/-- Index of the group with the currently smallest accumulated time
(run-tests.js lines 238-253). -/
def smallestIdx : List ℚ → Nat
  | [] => 0
  | t :: rest => smallestIdxAux rest t 1 0

/-- State of the greedy partitioner: `groups[i]` and `groupTimes[i]`. -/
structure GState where
  groups : List (List String)
  times : List ℚ
deriving DecidableEq

/-- One iteration of the greedy loop: push `name` onto the smallest group and
add its (defaulted) duration to that group's accumulated time
(run-tests.js lines 254-255). -/
def greedyStep (prevTimings : String → Option ℚ) (st : GState) (name : String) : GState :=
  let j := smallestIdx st.times
  { groups := st.groups.set j (st.groups.getD j [] ++ [name])
    times := st.times.set j (st.times.getD j 0 + lookupDur prevTimings name) }

/-- Initial greedy state: `groups = [[]]`, `groupTimes = [0]`, extended lazily
up to `groupTotal` slots (modelled eagerly; at least one slot always exists
exactly as in the source). -/
def greedyInit (groupTotal : Nat) : GState :=
  { groups := List.replicate (max groupTotal 1) []
    times := List.replicate (max groupTotal 1) 0 }

/-- The whole greedy partition of `names` (discovered order) into
`groupTotal` groups. -/
def greedyRun (prevTimings : String → Option ℚ) (groupTotal : Nat)
    (names : List String) : GState :=
  names.foldl (greedyStep prevTimings) (greedyInit groupTotal)

/-- Claim-side duration lookup following the spec text literally: the known
duration whenever one is recorded, `1` only when none is recorded.  Used to
compare the spec's words against the source's `|| 1`. -/
def lookupDurSpec (prevTimings : String → Option ℚ) (name : String) : ℚ :=
  match prevTimings name with
  | some d => d
  | none => 1

/-- Greedy run under the spec's literal duration lookup. -/
def greedyRunSpec (prevTimings : String → Option ℚ) (groupTotal : Nat)
    (names : List String) : GState :=
  names.foldl
    (fun st name =>
      let j := smallestIdx st.times
      { groups := st.groups.set j (st.groups.getD j [] ++ [name])
        times := st.times.set j (st.times.getD j 0 + lookupDurSpec prevTimings name) })
    (greedyInit groupTotal)

/-- `Math.ceil(total / groupTotal)` for a positive integer `groupTotal`
(run-tests.js line 266). -/
def numPerGroup (total groupTotal : Nat) : Nat :=
  (total + groupTotal - 1) / groupTotal

/-- `testNames.slice(offset, offset + numPerGroup)` for the 1-indexed group
`groupPos` (run-tests.js lines 266-268). -/
def sliceFor (names : List String) (groupPos groupTotal : Nat) : List String :=
  let n := numPerGroup names.length groupTotal
  (names.drop ((groupPos - 1) * n)).take n

/-! ## Skip-retry manifest and the retry loop (run-tests.js lines 465-508)

The manifest check is `skipRetryTestManifest.find((t) => t.includes(test))`.
The found *string* is then used in boolean positions, so JS truthiness makes
an empty found string behave like "not found"; this only matters for the
degenerate empty identifier, but the embedding keeps it. -/

/-- `skipRetryTestManifest.find((t) => t.includes(test))` used as a boolean
(run-tests.js line 465): some manifest entry contains `test` as a substring,
where a found empty string still counts as false by JS truthiness. -/
def shouldSkipRetries (manifest : List String) (test : String) : Bool :=
  match manifest.find? (fun t => strIncludes t test) with
  | some t => t != ""
  | none => false

/-- `const numRetries = shouldSkipRetries ? 0 : originalRetries`
(run-tests.js line 468). -/
def effectiveRetries (manifest : List String) (test : String) (originalRetries : Nat) : Nat :=
  if shouldSkipRetries manifest test then 0 else originalRetries

/-- One iteration of the per-test attempt loop, as observed from outside:
which attempt index ran, whether it passed, whether working-tree recovery was
performed afterwards, and what the recovery attempt itself reported. -/
structure AttemptEvent where
  idx : Nat
  passed : Bool
  recovered : Bool
  recoveryOk : Bool
deriving DecidableEq

/-- The control-flow relevant fields of an `AttemptEvent` (everything except
the swallowed recovery result). -/
def eventCore (e : AttemptEvent) : Nat × Bool × Bool :=
  (e.idx, e.passed, e.recovered)

/-- The loop `for (let i = 0; i < numRetries + 1; i++)` of run-tests.js lines
473-508, with `fuel = numRetries + 1 - i` remaining iterations.  `outcomes i`
tells whether attempt `i` exits cleanly; `recovery i` tells whether the
best-effort `git clean`/`git checkout` recovery after a failed attempt `i`
succeeds (its result is swallowed by the empty `catch`).  Returns the attempt
events in order and the final `passed` flag. -/
def retryLoopFrom (numRetries : Nat) (outcomes recovery : Nat → Bool) :
    Nat → Nat → List AttemptEvent × Bool
  | 0, _ => ([], false)
  | fuel + 1, i =>
    if outcomes i then
      ([{ idx := i, passed := true, recovered := false, recoveryOk := true }], true)
    else
      let rest := retryLoopFrom numRetries outcomes recovery fuel (i + 1)
      ({ idx := i, passed := false, recovered := decide (i < numRetries)
         recoveryOk := recovery i } :: rest.1, rest.2)

/-- The whole attempt loop for one test with retry budget `numRetries`. -/
def retryLoop (numRetries : Nat) (outcomes recovery : Nat → Bool) :
    List AttemptEvent × Bool :=
  retryLoopFrom numRetries outcomes recovery (numRetries + 1) 0

/-- The directory the working-tree recovery is scoped to (run-tests.js lines
493-499): `path.dirname(path.flatten(__dirname, test))`, or one level up when
that directory is itself named `test` (`endsWith('/test') ||
endsWith('\\test')`).  `path.flatten(rootDir, test)` is modelled as
`rootDir ++ "/" ++ test` and `path.flatten(testDir, '../')` as the parent
directory, which agree with Node on the normalized inputs the runner builds
(up to Node keeping a trailing separator on the `../` join). -/
def recoveryDir (rootDir test : String) : String :=
  let testDir := posixDirname (rootDir ++ "/" ++ test)
  if strEndsWith testDir "/test" || strEndsWith testDir "\\test" then
    posixDirname testDir
  else testDir

/-! ## Exit-code logic (run-tests.js lines 273-276, 510-521, 620-625)

Per test, `passed` is the final flag of its retry loop.  When a test ends
unpassed and continue-on-error is off, the runner kills all children and exits
1; when the selection is empty it exits 1 before scheduling; otherwise
`main()` resolves and the process exits 0.  Nothing aggregates failures under
continue-on-error. -/

/-- The process exit code as a function of the continue-on-error flag and the
per-test final `passed` flags of the selected tests. -/
def runExitCode (continueOnError : Bool) (passedFlags : List Bool) : Nat :=
  if passedFlags.isEmpty then 1
  else if !continueOnError && passedFlags.any (fun b => !b) then 1
  else 0

/-! ## Timing recorder (run-tests.js lines 481-484, 561-574)

`timings.push({file, time})` happens exactly on a successful attempt; at the
end `curTimings[timing.file] = timing.time / 1000` is applied in list order,
so a later entry for the same key overwrites an earlier one. -/

/-- The timing entries one test contributes: one `(file, time)` pair per
passing attempt (failed attempts never reach the `timings.push`). -/
def recordedTimings (test : String) (numRetries : Nat) (outcomes : Nat → Bool)
    (durs : Nat → ℚ) : List (String × ℚ) :=
  ((retryLoop numRetries outcomes (fun _ => true)).1.filter
      (fun e => e.passed)).map (fun e => (test, durs e.idx))

/-- The `curTimings` object after replaying all assignments
`curTimings[timing.file] = timing.time / 1000` in list order. -/
def applyTimings (ts : List (String × ℚ)) : String → Option ℚ :=
  ts.foldl (fun m e => fun k => if k = e.1 then some (e.2 / 1000) else m k)
    (fun _ => none)

/-- Spec-side description of last-write-wins: the value of the last entry in
the list carrying the key, divided by 1000, if any. -/
def lastWrite (ts : List (String × ℚ)) (k : String) : Option ℚ :=
  match ts with
  | [] => none
  | e :: rest =>
    match lastWrite rest k with
    | some v => some v
    | none => if e.1 = k then some (e.2 / 1000) else none

/-! ## Output capture (run-tests.js lines 397-422)

`handleOutput` pushes `{type, chunk}` onto `outputChunks` when output is
hidden and streams the chunk through immediately otherwise.  On a failed exit
in hidden mode the worker acquires `outputSema`, prints the start marker, the
buffered chunks in order, the end marker, and releases; on a clean exit the
buffer is simply dropped. -/

/-- One step of `handleOutput`: returns the new buffer and whatever was
printed immediately (lines 397-403). -/
def handleOutput (hideOutput : Bool) (buf : List (String × String))
    (c : String × String) : List (String × String) × List String :=
  if hideOutput then (buf ++ [c], []) else (buf, [c.2])

/-- Replaying `handleOutput` over all arriving chunks of one attempt:
final `(outputChunks, immediately printed output)`. -/
def attemptBuffer (hideOutput : Bool) (cs : List (String × String)) :
    List (String × String) × List String :=
  cs.foldl
    (fun st c =>
      let r := handleOutput hideOutput st.1 c
      (r.1, st.2 ++ r.2))
    ([], [])

/-! ## Semaphore machine (run-tests.js lines 319-320, 447-462, 546-547)

A small-step semantics for the `async-sema` pools: the global pool of size
`concurrency`, the exclusive printing pool `outputSema` of size 1, and the
lazily created per-directory pools of size 1 for legacy integration tests.
A worker is its test name plus the list of remaining semaphore/print actions;
the scheduler nondeterministically runs any worker whose next action is
enabled. -/

/-- The semaphore identities of the runner. -/
inductive SemId where
  | glob : SemId
  | out : SemId
  | dir : String → SemId
deriving DecidableEq

/-- An atomic worker action: acquire or release a semaphore, or emit one line
of output. -/
inductive Act where
  | acq : SemId → Act
  | rel : SemId → Act
  | emit : String → Act
deriving DecidableEq

/-- The semaphore an action touches, if any. -/
def actSem : Act → Option SemId
  | Act.acq s => some s
  | Act.rel s => some s
  | Act.emit _ => none

/-- Remaining action list of one worker. -/
abbrev WorkerProg := List Act

/-- A system state: available permits per semaphore and the workers
(test name, remaining actions). -/
structure SysState where
  avail : SemId → Nat
  workers : List (String × WorkerProg)

/-- Pointwise update of the permit table. -/
def setAvail (f : SemId → Nat) (s : SemId) (n : Nat) : SemId → Nat :=
  fun x => if x = s then n else f x

/-- One worker step: an acquire blocks until a permit is available, a release
returns a permit, an emit just runs. -/
inductive WStep : (SemId → Nat) → WorkerProg → (SemId → Nat) → WorkerProg → Prop where
  | acq (f : SemId → Nat) (s : SemId) (rest : WorkerProg) (h : 0 < f s) :
      WStep f (Act.acq s :: rest) (setAvail f s (f s - 1)) rest
  | rel (f : SemId → Nat) (s : SemId) (rest : WorkerProg) :
      WStep f (Act.rel s :: rest) (setAvail f s (f s + 1)) rest
  | emit (f : SemId → Nat) (m : String) (rest : WorkerProg) :
      WStep f (Act.emit m :: rest) f rest

/-- One system step: some worker takes a step, all others stay. -/
inductive SysStep : SysState → SysState → Prop where
  | mk (f fNew : SemId → Nat) (t : String) (p pNew : WorkerProg)
      (pre post : List (String × WorkerProg)) :
      WStep f p fNew pNew →
      SysStep { avail := f, workers := pre ++ (t, p) :: post }
        { avail := fNew, workers := pre ++ (t, pNew) :: post }

/-- Reachability in the scheduler semantics. -/
def Reach (a b : SysState) : Prop := Relation.ReflTransGen SysStep a b

/-- Number of `acq s` actions in a program. -/
def countAcq (s : SemId) : WorkerProg → Nat
  | [] => 0
  | Act.acq t :: r => (if t = s then 1 else 0) + countAcq s r
  | Act.rel _ :: r => countAcq s r
  | Act.emit _ :: r => countAcq s r

/-- Number of `rel s` actions in a program. -/
def countRel (s : SemId) : WorkerProg → Nat
  | [] => 0
  | Act.acq _ :: r => countRel s r
  | Act.rel t :: r => (if t = s then 1 else 0) + countRel s r
  | Act.emit _ :: r => countRel s r

/-- Permits of `s` a worker currently holds, read off its remaining program:
for the suffix of an initially balanced program this is the number of pending
releases not matched by a pending acquire. -/
def heldBy (s : SemId) (p : WorkerProg) : Nat := countRel s p - countAcq s p

/-- Total permits of `s` held across all workers. -/
def heldSum (s : SemId) (ws : List (String × WorkerProg)) : Nat :=
  (ws.map (fun w => heldBy s w.2)).sum

/-- Number of workers currently holding at least one permit of `s`. -/
def holdersCount (s : SemId) (ws : List (String × WorkerProg)) : Nat :=
  (ws.filter (fun w => decide (0 < heldBy s w.2))).length

/-- A program is release-safe for `s` when no suffix has more pending
acquires than pending releases; the suffixes of a program that acquires
before releasing all satisfy this. -/
def WFfor (s : SemId) (p : WorkerProg) : Prop :=
  ∀ q ∈ p.tails, countAcq s q ≤ countRel s q

/-- The retry-loop body only ever touches the print semaphore. -/
def BodyOK (p : WorkerProg) : Prop :=
  ∀ a ∈ p, ∀ s, actSem a = some s → s = SemId.out

/-- `test.startsWith('test/integration')` (run-tests.js line 457): tests
under the legacy root get directory exclusivity. -/
def isLegacy (test : String) : Bool :=
  strStartsWith test "test/integration"

/-- `path.dirname(test)` (run-tests.js line 452), the key of the lazily
created per-directory pool. -/
def dirNameOf (test : String) : String := posixDirname test

/-- The semaphore skeleton of one worker (run-tests.js lines 451-548): for a
legacy test, acquire the size-1 directory pool, then the global pool, run the
attempt loop `body`, release the global pool, then the directory pool; other
tests skip the directory pool. -/
def workerProg (body : WorkerProg) (test : String) : WorkerProg :=
  (if isLegacy test then [Act.acq (SemId.dir (dirNameOf test))] else [])
    ++ [Act.acq SemId.glob] ++ body ++ [Act.rel SemId.glob]
    ++ (if isLegacy test then [Act.rel (SemId.dir (dirNameOf test))] else [])

/-- Initial permit table: `new Sema(concurrency)`, `new Sema(1)` for
`outputSema`, and `new Sema(1)` per directory (lines 319-320, 458). -/
def capFn (concurrency : Nat) : SemId → Nat
  | SemId.glob => concurrency
  | SemId.out => 1
  | SemId.dir _ => 1

/-- Initial system state: every selected test becomes one worker. -/
def initState (concurrency : Nat) (body : String → WorkerProg)
    (tests : List String) : SysState :=
  { avail := capFn concurrency
    workers := tests.map (fun t => (t, workerProg (body t) t)) }

/-- Number of legacy workers of directory `d` currently executing their test,
i.e. holding the global concurrency permit. -/
def execCount (d : String) (ws : List (String × WorkerProg)) : Nat :=
  (ws.filter (fun w =>
    isLegacy w.1 && (dirNameOf w.1 == d) && decide (0 < heldBy SemId.glob w.2))).length

/-- The permit-accounting invariant for one semaphore: every worker's
remaining program is release-safe for `s`, and the available permits plus the
permits held across workers equal the pool's capacity. -/
def SemInv (s : SemId) (cap : Nat) (st : SysState) : Prop :=
  (∀ w ∈ st.workers, WFfor s w.2) ∧ st.avail s + heldSum s st.workers = cap

/-- The delimited output block of a failed attempt (lines 414-420): start
marker, buffered chunks in capture order, end marker. -/
def blockEmits (test : String) (buf : List (String × String)) : WorkerProg :=
  Act.emit (test ++ " output") ::
    (buf.map (fun c => Act.emit c.2) ++ [Act.emit ("end of " ++ test ++ " output")])

/-- The flush a finished attempt performs (lines 411-422): only a failed
attempt in hidden-output mode prints, and it does so as one delimited block
inside the exclusive `outputSema` critical section; a successful attempt
discards its buffer. -/
def exitFlush (hideOutput : Bool) (test : String) (buf : List (String × String))
    (failed : Bool) : WorkerProg :=
  if failed && hideOutput then
    Act.acq SemId.out :: (blockEmits test buf ++ [Act.rel SemId.out])
  else []

/-! ## Concrete inputs used by counterexamples and witnesses -/

/-- Concrete timing table recording an explicit duration of `0` for every
test; separates the source's `|| 1` from the claim's "default only when no
duration is recorded". -/
def zeroTimings : String → Option ℚ := fun _ => some 0

/-- Concrete attempt outcomes: attempt 0 fails, attempt 1 passes. -/
def failThenPass : Nat → Bool := fun i => decide (i = 1)

/-- Concrete wall-clock durations: attempt 0 takes 5, later attempts take 7. -/
def attemptDurs : Nat → ℚ := fun i => if i = 0 then 5 else 7

/-! ## Lemmas about the partitioner -/

theorem flatten_replicate_nil {α : Type} (n : Nat) :
    (List.replicate n ([] : List α)).flatten = [] := by
  induction n with
  | zero => simp
  | succ n ih => simp [List.replicate_succ, ih]

theorem smallestIdxAux_lt (rest : List ℚ) :
    ∀ (cur : ℚ) (i best : Nat), best < i →
      smallestIdxAux rest cur i best < i + rest.length := by
  induction rest with
  | nil =>
    intro cur i best h
    simpa [smallestIdxAux] using h
  | cons t r ih =>
    intro cur i best h
    simp only [smallestIdxAux]
    by_cases hc : t < cur
    · rw [if_pos hc]
      have := ih t (i + 1) i (by omega)
      simp only [List.length_cons]
      omega
    · rw [if_neg hc]
      have := ih cur (i + 1) best (by omega)
      simp only [List.length_cons]
      omega

theorem smallestIdx_lt (l : List ℚ) (h : 0 < l.length) : smallestIdx l < l.length := by
  cases l with
  | nil => simp at h
  | cons t r =>
    have := smallestIdxAux_lt r t 1 0 (by omega)
    simp only [smallestIdx, List.length_cons]
    omega

theorem flatten_set_append {α : Type} (x : α) (l : List (List α)) :
    ∀ j, j < l.length →
      ((l.set j (l.getD j [] ++ [x])).flatten).Perm (l.flatten ++ [x]) := by
  induction l with
  | nil => intro j h; simp at h
  | cons a l ih =>
    intro j h
    cases j with
    | zero =>
      simp only [List.set_cons_zero, List.getD_cons_zero, List.flatten_cons,
        List.append_assoc]
      exact List.Perm.append_left a List.perm_append_comm
    | succ j =>
      simp only [List.set_cons_succ, List.getD_cons_succ, List.flatten_cons,
        List.append_assoc]
      refine List.Perm.append_left a ?_
      have hj : j < l.length := by simp at h; omega
      simpa [List.append_assoc] using ih j hj

theorem greedyStep_times_length (p : String → Option ℚ) (st : GState) (name : String) :
    (greedyStep p st name).times.length = st.times.length := by
  simp [greedyStep]

theorem greedyStep_groups_length (p : String → Option ℚ) (st : GState) (name : String) :
    (greedyStep p st name).groups.length = st.groups.length := by
  simp [greedyStep]

theorem greedy_fold_flatten_perm (p : String → Option ℚ) (names : List String) :
    ∀ st : GState, st.groups.length = st.times.length → 0 < st.times.length →
      ((names.foldl (greedyStep p) st).groups.flatten).Perm (st.groups.flatten ++ names) := by
  induction names with
  | nil => intro st _ _; simp
  | cons n ns ih =>
    intro st h1 h2
    have hj : smallestIdx st.times < st.groups.length := by
      rw [h1]; exact smallestIdx_lt st.times h2
    have hstep : ((greedyStep p st n).groups.flatten).Perm (st.groups.flatten ++ [n]) := by
      simpa [greedyStep] using flatten_set_append n st.groups (smallestIdx st.times) hj
    have hrec := ih (greedyStep p st n)
      (by rw [greedyStep_groups_length, greedyStep_times_length, h1])
      (by rw [greedyStep_times_length]; exact h2)
    have heq : (st.groups.flatten ++ [n]) ++ ns = st.groups.flatten ++ (n :: ns) := by simp
    rw [List.foldl_cons]
    exact heq ▸ (hrec.trans (List.Perm.append_right ns hstep))

theorem le_mul_numPerGroup (total groupTotal : Nat) (h : 1 ≤ groupTotal) :
    total ≤ groupTotal * numPerGroup total groupTotal := by
  have h1 := Nat.div_add_mod (total + groupTotal - 1) groupTotal
  have h2 := Nat.mod_lt (total + groupTotal - 1) (show 0 < groupTotal by omega)
  unfold numPerGroup
  generalize (total + groupTotal - 1) / groupTotal = q at h1 ⊢
  generalize hP : groupTotal * q = P at h1 ⊢
  omega

theorem range_chunks_flatten {α : Type} (n : Nat) :
    ∀ (k : Nat) (l : List α), l.length ≤ k * n →
      ((List.range k).map (fun i => (l.drop (i * n)).take n)).flatten = l := by
  intro k
  induction k with
  | zero =>
    intro l h
    have hl : l = [] := List.length_eq_zero.mp (by simpa using h)
    subst hl; simp
  | succ k ih =>
    intro l h
    rw [List.range_succ_eq_map]
    simp only [List.map_cons, List.map_map, List.flatten_cons, Nat.zero_mul,
      List.drop_zero]
    have hfun : ((fun i => (l.drop (i * n)).take n) ∘ Nat.succ) =
        (fun i => (((l.drop n).drop (i * n)).take n)) := by
      funext i
      simp only [Function.comp]
      rw [List.drop_drop]
      congr 2
      simp [Nat.succ_mul]
      omega
    rw [hfun, ih (l.drop n) (by simp [Nat.succ_mul] at h ⊢; omega)]
    exact List.take_append_drop n l

theorem slices_cover (names : List String) (groupTotal : Nat) (h : 1 ≤ groupTotal) :
    ((List.range groupTotal).map (fun g => sliceFor names (g + 1) groupTotal)).flatten
      = names := by
  have hb := le_mul_numPerGroup names.length groupTotal h
  have hc := range_chunks_flatten (numPerGroup names.length groupTotal) groupTotal names hb
  have hfun : (fun g => sliceFor names (g + 1) groupTotal) =
      (fun g => (names.drop (g * numPerGroup names.length groupTotal)).take
        (numPerGroup names.length groupTotal)) := by
    funext g
    simp [sliceFor, Nat.add_sub_cancel]
  rw [hfun]
  exact hc

/-! ## Claims about the partitioner -/

/-- Claim C1: for every filtered identifier list and every `groupTotal >= 1`,
both partitioning algorithms assign each identifier to exactly one group: the
concatenation of all groups is a permutation of the input (greedy) resp. equal
to the input (slicing), so nothing is lost or duplicated, and the per-group
counts sum to the total count. -/
theorem partition_exactly_once (p : String → Option ℚ) (names : List String)
    (groupTotal : Nat) (h : 1 ≤ groupTotal) :
    (((greedyRun p groupTotal names).groups.flatten).Perm names ∧
      ((greedyRun p groupTotal names).groups.map List.length).sum = names.length) ∧
    (((List.range groupTotal).map (fun g => sliceFor names (g + 1) groupTotal)).flatten
        = names ∧
      ((List.range groupTotal).map
        (fun g => (sliceFor names (g + 1) groupTotal).length)).sum = names.length) := by
  have hinit1 : (greedyInit groupTotal).groups.length = (greedyInit groupTotal).times.length := by
    simp [greedyInit]
  have hinit2 : 0 < (greedyInit groupTotal).times.length := by
    simp [greedyInit]
  have hperm : ((greedyRun p groupTotal names).groups.flatten).Perm names := by
    have := greedy_fold_flatten_perm p names (greedyInit groupTotal) hinit1 hinit2
    simpa [greedyRun, greedyInit, flatten_replicate_nil] using this
  have hsum : ((greedyRun p groupTotal names).groups.map List.length).sum = names.length := by
    rw [← List.length_flatten]
    exact hperm.length_eq
  have hcover := slices_cover names groupTotal h
  refine ⟨⟨hperm, hsum⟩, hcover, ?_⟩
  have hmm : (List.range groupTotal).map (fun g => (sliceFor names (g + 1) groupTotal).length)
      = ((List.range groupTotal).map (fun g => sliceFor names (g + 1) groupTotal)).map
          List.length := by
    rw [List.map_map]
    rfl
  rw [hmm, ← List.length_flatten, hcover]

/-- Witness for C1 at a concrete input. -/
theorem partition_exactly_once_witness :
    ((greedyRun (fun _ => none) 2 ["a", "b", "c"]).groups.flatten).Perm ["a", "b", "c"] :=
  ((partition_exactly_once (fun _ => none) ["a", "b", "c"] 2 (by omega)).1).1

/-- Claim C5: without timings, partitioning is contiguous slicing in discovery
order with `ceil(total/groupTotal)` per group: the slices cover the input in
order, each slice has at most `ceil(total/groupTotal)` elements, and on the
discovery set of the claim with `groupTotal = 2` group 1 gets the first two
identifiers and group 2 the third. -/
theorem slicing_contiguous (names : List String) (groupTotal : Nat) (h : 1 ≤ groupTotal) :
    ((List.range groupTotal).map (fun g => sliceFor names (g + 1) groupTotal)).flatten
        = names ∧
    (∀ gp, (sliceFor names gp groupTotal).length ≤ numPerGroup names.length groupTotal) ∧
    sliceFor ["a/x.test.js", "a/y.test.js", "b/z.test.js"] 1 2
        = ["a/x.test.js", "a/y.test.js"] ∧
    sliceFor ["a/x.test.js", "a/y.test.js", "b/z.test.js"] 2 2 = ["b/z.test.js"] := by
  refine ⟨slices_cover names groupTotal h, ?_, by decide, by decide⟩
  intro gp
  exact List.length_take_le _ _

/-- Witness for C5 at the claim's concrete discovery set. -/
theorem slicing_contiguous_witness :
    sliceFor ["a/x.test.js", "a/y.test.js", "b/z.test.js"] 1 2
      = ["a/x.test.js", "a/y.test.js"] :=
  (slicing_contiguous ["a/x.test.js", "a/y.test.js", "b/z.test.js"] 2 (by omega)).2.2.1

theorem smallestIdxAux_spec (l : List ℚ) (rest : List ℚ) :
    ∀ (i best : Nat) (cur : ℚ),
      l.length = i + rest.length →
      (∀ k, k < rest.length → rest.getD k 0 = l.getD (i + k) 0) →
      best < i → best < l.length → cur = l.getD best 0 →
      (∀ k, k < i → cur ≤ l.getD k 0) →
      (∀ k, k < best → cur < l.getD k 0) →
      (smallestIdxAux rest cur i best < l.length ∧
        (∀ k, k < l.length →
          l.getD (smallestIdxAux rest cur i best) 0 ≤ l.getD k 0) ∧
        (∀ k, k < smallestIdxAux rest cur i best →
          l.getD (smallestIdxAux rest cur i best) 0 < l.getD k 0)) := by
  induction rest with
  | nil =>
    intro i best cur hlen _ _ hbl hcur h1 h2
    simp only [smallestIdxAux]
    refine ⟨hbl, ?_, ?_⟩
    · intro k hk
      rw [← hcur]
      exact h1 k (by simp at hlen; omega)
    · intro k hk
      rw [← hcur]
      exact h2 k hk
  | cons t r ih =>
    intro i best cur hlen hidx hbi hbl hcur h1 h2
    have hil : i < l.length := by simp at hlen; omega
    have ht : t = l.getD i 0 := by
      have h0 := hidx 0 (by simp)
      simpa using h0
    have hidxr : ∀ k, k < r.length → r.getD k 0 = l.getD (i + 1 + k) 0 := by
      intro k hk
      have hx := hidx (k + 1) (by simp; omega)
      rw [List.getD_cons_succ] at hx
      rw [hx]
      congr 1
      omega
    simp only [smallestIdxAux]
    by_cases hc : t < cur
    · rw [if_pos hc]
      refine ih (i + 1) i t (by simp at hlen ⊢; omega) hidxr (by omega) hil ht ?_ ?_
      · intro k hk
        rcases Nat.lt_succ_iff_lt_or_eq.mp hk with hk' | hk'
        · exact le_of_lt (lt_of_lt_of_le hc (h1 k hk'))
        · subst hk'
          exact le_of_eq ht
      · intro k hk
        exact lt_of_lt_of_le hc (h1 k hk)
    · rw [if_neg hc]
      refine ih (i + 1) best cur (by simp at hlen ⊢; omega) hidxr (by omega) hbl hcur ?_ h2
      intro k hk
      rcases Nat.lt_succ_iff_lt_or_eq.mp hk with hk' | hk'
      · exact h1 k hk'
      · subst hk'
        rw [← ht]
        exact le_of_not_lt hc

theorem smallestIdx_spec (l : List ℚ) (h : 0 < l.length) :
    smallestIdx l < l.length ∧
    (∀ k, k < l.length → l.getD (smallestIdx l) 0 ≤ l.getD k 0) ∧
    (∀ k, k < smallestIdx l → l.getD (smallestIdx l) 0 < l.getD k 0) := by
  cases l with
  | nil => simp at h
  | cons t r =>
    have hs := smallestIdxAux_spec (t :: r) r 1 0 t (by simp; omega)
      (fun k hk => by
        rw [show (1 : Nat) + k = k + 1 by omega, List.getD_cons_succ])
      (by omega) (by simp) (by simp)
      (fun k hk => by
        have hk0 : k = 0 := by omega
        subst hk0
        simp)
      (fun k hk => absurd hk (Nat.not_lt_zero k))
    simpa [smallestIdx] using hs

/-- Claim C3 counterexample: the claim says the identifier's *known* duration
is added, defaulting to 1 only when *no* duration is recorded.  For the test
`"t"` the table `zeroTimings` records the duration `0`, so the claim predicts
a final accumulated group time of `0`; the source computes
`prevTimings[testName] || 1`, for which the recorded `0` is falsy, and
accumulates `1`. -/
theorem greedy_zero_duration_counterexample :
    (greedyRun zeroTimings 1 ["t"]).times = [1] ∧
    (greedyRunSpec zeroTimings 1 ["t"]).times = [0] ∧
    (1 : ℚ) ≠ (0 : ℚ) := by
  refine ⟨?_, ?_, by norm_num⟩ <;>
    norm_num [greedyRun, greedyRunSpec, greedyStep, greedyInit, smallestIdx,
      smallestIdxAux, lookupDur, lookupDurSpec, zeroTimings, List.replicate]

/-- Claim C3 (amended): with historical timing data, the greedy partitioner
processes identifiers in discovered order and assigns each identifier to the
group whose accumulated duration is currently smallest, ties broken by lowest
group index (the chosen index attains the minimum and every lower index is
strictly larger), and then adds the identifier's duration to that group's
total — where the added duration is the recorded one, except that both an
absent entry and a recorded duration of `0` (falsy in JS) default to `1`. -/
theorem greedy_assigns_first_smallest (p : String → Option ℚ) (st : GState)
    (name : String) (hpos : 0 < st.times.length) :
    smallestIdx st.times < st.times.length ∧
    (∀ k, k < st.times.length →
      st.times.getD (smallestIdx st.times) 0 ≤ st.times.getD k 0) ∧
    (∀ k, k < smallestIdx st.times →
      st.times.getD (smallestIdx st.times) 0 < st.times.getD k 0) ∧
    greedyStep p st name =
      { groups := st.groups.set (smallestIdx st.times)
          (st.groups.getD (smallestIdx st.times) [] ++ [name])
        times := st.times.set (smallestIdx st.times)
          (st.times.getD (smallestIdx st.times) 0 + lookupDur p name) } ∧
    (∀ d, p name = some d → d ≠ 0 → lookupDur p name = d) ∧
    (p name = none → lookupDur p name = 1) ∧
    (p name = some 0 → lookupDur p name = 1) := by
  obtain ⟨ha, hb, hcc⟩ := smallestIdx_spec st.times hpos
  refine ⟨ha, hb, hcc, rfl, ?_, ?_, ?_⟩
  · intro d hd hd0
    simp [lookupDur, hd, hd0]
  · intro hd
    simp [lookupDur, hd]
  · intro hd
    simp [lookupDur, hd]

/-- Witness for the amended C3 at a concrete state: with two groups at times
`[0, 0]` the tie goes to group 0 and the default duration `1` is added. -/
theorem greedy_assigns_first_smallest_witness :
    greedyStep (fun _ => none) { groups := [[], []], times := [0, 0] } "a" =
      { groups := [["a"], []], times := [1, 0] } := by
  have h := greedy_assigns_first_smallest (fun _ => none)
    { groups := [[], []], times := [0, 0] } "a" (by simp)
  rw [h.2.2.2.1]
  norm_num [smallestIdx, smallestIdxAux, lookupDur]

/-! ## Lemmas about the retry loop -/

theorem retryLoopFrom_length_le (n : Nat) (outcomes recovery : Nat → Bool) :
    ∀ (fuel i : Nat), (retryLoopFrom n outcomes recovery fuel i).1.length ≤ fuel := by
  intro fuel
  induction fuel with
  | zero => intro i; simp [retryLoopFrom]
  | succ fuel ih =>
    intro i
    cases h : outcomes i with
    | true => simp [retryLoopFrom, h]
    | false =>
      simp only [retryLoopFrom, h]
      simp only [Bool.false_eq_true, if_false, List.length_cons]
      have := ih (i + 1)
      omega

theorem retryLoop_zero_length (outcomes recovery : Nat → Bool) :
    (retryLoop 0 outcomes recovery).1.length = 1 := by
  cases h : outcomes 0 <;> simp [retryLoop, retryLoopFrom, h]

theorem retryLoopFrom_recovered_iff (n : Nat) (outcomes recovery : Nat → Bool) :
    ∀ (fuel i : Nat), ∀ e ∈ (retryLoopFrom n outcomes recovery fuel i).1,
      (e.recovered = true ↔ (e.passed = false ∧ e.idx < n)) := by
  intro fuel
  induction fuel with
  | zero => intro i e he; simp [retryLoopFrom] at he
  | succ fuel ih =>
    intro i e he
    cases h : outcomes i with
    | true =>
      simp [retryLoopFrom, h] at he
      subst he
      simp
    | false =>
      simp [retryLoopFrom, h] at he
      rcases he with he | he
      · subst he
        simp
      · exact ih (i + 1) e he

theorem retryLoopFrom_recovery_irrelevant (n : Nat) (outcomes r1 r2 : Nat → Bool) :
    ∀ (fuel i : Nat),
      (retryLoopFrom n outcomes r1 fuel i).2 = (retryLoopFrom n outcomes r2 fuel i).2 ∧
      (retryLoopFrom n outcomes r1 fuel i).1.map eventCore
        = (retryLoopFrom n outcomes r2 fuel i).1.map eventCore := by
  intro fuel
  induction fuel with
  | zero => intro i; simp [retryLoopFrom]
  | succ fuel ih =>
    intro i
    obtain ⟨h2, h1⟩ := ih (i + 1)
    cases h : outcomes i with
    | true => simp [retryLoopFrom, h]
    | false => simp [retryLoopFrom, h, eventCore, h2, h1]

theorem retryLoopFrom_passed_once (n : Nat) (outcomes recovery : Nat → Bool) :
    ∀ (fuel i : Nat),
      ((retryLoopFrom n outcomes recovery fuel i).1.filter
          (fun e => e.passed)).length ≤ 1 ∧
      ((retryLoopFrom n outcomes recovery fuel i).2 = true ↔
        ∃ e ∈ (retryLoopFrom n outcomes recovery fuel i).1, e.passed = true) := by
  intro fuel
  induction fuel with
  | zero => intro i; simp [retryLoopFrom]
  | succ fuel ih =>
    intro i
    obtain ⟨ha, hb⟩ := ih (i + 1)
    cases h : outcomes i with
    | true => simp [retryLoopFrom, h]
    | false => simp [retryLoopFrom, h, ha, hb]

/-! ## Claims about the retry loop, skip-retry manifest, exit code, timings -/

/-- Claim C4: with retry budget `N` a test is attempted at most `N + 1` times
before being marked permanently failed, and a test matched by the skip-retry
manifest is attempted exactly once regardless of the configured budget. -/
theorem retry_budget_bound (originalRetries : Nat) (manifest : List String)
    (test : String) (outcomes recovery : Nat → Bool) :
    (retryLoop (effectiveRetries manifest test originalRetries)
        outcomes recovery).1.length ≤ originalRetries + 1 ∧
    (shouldSkipRetries manifest test = true →
      (retryLoop (effectiveRetries manifest test originalRetries)
        outcomes recovery).1.length = 1) := by
  constructor
  · have h1 := retryLoopFrom_length_le (effectiveRetries manifest test originalRetries)
      outcomes recovery (effectiveRetries manifest test originalRetries + 1) 0
    have h2 : effectiveRetries manifest test originalRetries ≤ originalRetries := by
      unfold effectiveRetries
      split <;> omega
    unfold retryLoop
    omega
  · intro hs
    have he : effectiveRetries manifest test originalRetries = 0 := by
      simp [effectiveRetries, hs]
    rw [he]
    exact retryLoop_zero_length outcomes recovery

/-- Witness for C4: the manifest entry `"suites/known-flaky.txt:foo/a.test.js"`
contains the identifier `"foo/a.test.js"`, so exactly one attempt happens even
with a budget of 3 and always-failing outcomes. -/
theorem retry_budget_bound_witness :
    (retryLoop (effectiveRetries ["suites/known-flaky.txt:foo/a.test.js"]
        "foo/a.test.js" 3) (fun _ => false) (fun _ => true)).1.length = 1 :=
  (retry_budget_bound 3 ["suites/known-flaky.txt:foo/a.test.js"] "foo/a.test.js"
    (fun _ => false) (fun _ => true)).2 (by decide)

theorem listIsInfixOf_nil_false (l : List Char) (h : l ≠ []) :
    listIsInfixOf l [] = false := by
  cases l with
  | nil => exact absurd rfl h
  | cons c cs => rfl

theorem strIncludes_hay_ne_empty (t test : String) (h : strIncludes t test = true)
    (hne : test ≠ "") : t ≠ "" := by
  intro ht
  subst ht
  have hl : test.data ≠ [] := by
    intro h0
    exact hne (String.ext h0)
  rw [strIncludes] at h
  have : listIsInfixOf test.toList ("" : String).toList = false :=
    listIsInfixOf_nil_false test.toList hl
  rw [this] at h
  exact Bool.false_ne_true h

/-- Claim C10: a test's retries are skipped iff some entry of the skip-retry
manifest contains the (nonempty) test identifier as a substring; an entry that
does not contain the full identifier never triggers the skip. -/
theorem skip_retry_iff_substring (manifest : List String) (test : String)
    (hne : test ≠ "") :
    shouldSkipRetries manifest test = true ↔
      ∃ t ∈ manifest, strIncludes t test = true := by
  constructor
  · intro h
    unfold shouldSkipRetries at h
    cases hf : manifest.find? (fun t => strIncludes t test) with
    | none => rw [hf] at h; simp at h
    | some t =>
      have hp := List.find?_some hf
      exact ⟨t, List.mem_of_find?_eq_some hf, hp⟩
  · rintro ⟨t, ht, hp⟩
    unfold shouldSkipRetries
    cases hf : manifest.find? (fun t => strIncludes t test) with
    | none =>
      have := List.find?_eq_none.mp hf t ht
      exact absurd hp this
    | some t2 =>
      have hp2 := List.find?_some hf
      have := strIncludes_hay_ne_empty t2 test hp2 hne
      simpa using this

/-- Witness for C10: the manifest entry containing the identifier triggers the
skip, and (checked directly) an entry that is only a prefix of the identifier
does not. -/
theorem skip_retry_iff_substring_witness :
    shouldSkipRetries ["known/bar.test.js"] "bar.test.js" = true ∧
    shouldSkipRetries ["bar"] "bar.test.js" = false := by
  constructor
  · exact (skip_retry_iff_substring ["known/bar.test.js"] "bar.test.js"
      (by decide)).mpr ⟨"known/bar.test.js", by simp, by decide⟩
  · decide

/-- Claim C6: after every failed attempt that is not the final attempt —
and only then — working-tree recovery is performed; the recovery result is
swallowed: neither the final passed flag nor any control-flow visible field
of the attempt sequence depends on it; and the recovery is scoped to the
test's containing directory, or one level up when that directory is itself
named `test`. -/
theorem recovery_between_attempts (n : Nat) (outcomes r1 r2 : Nat → Bool)
    (rootDir test : String) :
    (∀ e ∈ (retryLoop n outcomes r1).1,
      (e.recovered = true ↔ (e.passed = false ∧ e.idx < n))) ∧
    ((retryLoop n outcomes r1).2 = (retryLoop n outcomes r2).2 ∧
      (retryLoop n outcomes r1).1.map eventCore
        = (retryLoop n outcomes r2).1.map eventCore) ∧
    (strEndsWith (posixDirname (rootDir ++ "/" ++ test)) "/test" = false →
      strEndsWith (posixDirname (rootDir ++ "/" ++ test)) "\\test" = false →
      recoveryDir rootDir test = posixDirname (rootDir ++ "/" ++ test)) ∧
    (strEndsWith (posixDirname (rootDir ++ "/" ++ test)) "/test" = true →
      recoveryDir rootDir test
        = posixDirname (posixDirname (rootDir ++ "/" ++ test))) := by
  refine ⟨retryLoopFrom_recovered_iff n outcomes r1 (n + 1) 0,
    retryLoopFrom_recovery_irrelevant n outcomes r1 r2 (n + 1) 0, ?_, ?_⟩
  · intro h1 h2
    simp [recoveryDir, h1, h2]
  · intro h1
    simp [recoveryDir, h1]

/-- Witness for C6: with budget 1 and both attempts failing, recovery runs
after attempt 0 and not after the final attempt 1, and the fixture directory
`a/test` is scoped one level up to `/repo/a`. -/
theorem recovery_between_attempts_witness :
    (∃ e ∈ (retryLoop 1 (fun _ => false) (fun _ => true)).1,
      e.idx = 0 ∧ e.recovered = true) ∧
    recoveryDir "/repo" "a/test/x.test.js" = "/repo/a" := by
  have h := recovery_between_attempts 1 (fun _ => false) (fun _ => true)
    (fun _ => true) "/repo" "a/test/x.test.js"
  constructor
  · have hm : (⟨0, false, true, true⟩ : AttemptEvent)
        ∈ (retryLoop 1 (fun _ => false) (fun _ => true)).1 := by decide
    exact ⟨_, hm, rfl, (h.1 _ hm).mpr ⟨rfl, by decide⟩⟩
  · have := h.2.2.2 (by decide)
    rw [this]
    decide

/-- Claim C2 counterexample: with continue-on-error enabled and the only test
ultimately failed (its retry loop ends unpassed), nothing aggregates the
failure, `main()` resolves, and the process exits 0 — not nonzero as the
claim states. -/
theorem continue_on_error_exit_counterexample :
    (retryLoop 0 (fun _ => false) (fun _ => true)).2 = false ∧
    runExitCode true [false] = 0 := by
  exact ⟨by decide, by decide⟩

theorem any_not_false_iff (flags : List Bool) :
    flags.any (fun b => !b) = false ↔ ∀ b ∈ flags, b = true := by
  induction flags with
  | nil => simp
  | cons a l ih => cases a <;> simp [ih]

/-- Claim C2 (amended): the exit code is 0 iff the selection is nonempty and
either continue-on-error is enabled or every test ultimately passed; with
continue-on-error disabled, an ultimately-failed test forces exit code 1 (and
an empty selection also exits 1).  Under continue-on-error the process exits 0
absent a crash even when tests ultimately failed. -/
theorem exit_code_characterization (c : Bool) (flags : List Bool) :
    (runExitCode c flags = 0 ↔
      flags ≠ [] ∧ (c = true ∨ ∀ b ∈ flags, b = true)) ∧
    (c = false → flags.any (fun b => !b) = true → runExitCode c flags = 1) := by
  constructor
  · unfold runExitCode
    by_cases h1 : flags.isEmpty = true
    · have he : flags = [] := by simpa using h1
      subst he
      simp
    · have hne : flags ≠ [] := by simpa using h1
      rw [if_neg h1]
      cases c with
      | true => simp [hne]
      | false =>
        by_cases h2 : flags.any (fun b => !b) = true
        · have hmem : false ∈ flags := by
            obtain ⟨b, hb, hbb⟩ := List.any_eq_true.mp h2
            cases b
            · exact hb
            · simp at hbb
          simp [h2, hne, hmem]
        · have hf : flags.any (fun b => !b) = false := by
            cases hx : flags.any (fun b => !b) with
            | true => exact absurd hx h2
            | false => rfl
          have hnm : false ∉ flags := by
            intro hmem
            have := (any_not_false_iff flags).mp hf false hmem
            simp at this
          simp [hf, hne, hnm]
  · intro hc h2
    subst hc
    unfold runExitCode
    have hne : flags.isEmpty = false := by
      cases flags with
      | nil => simp at h2
      | cons a l => rfl
    simp [hne, h2]

/-- Witness for the amended C2: one failed test without continue-on-error
exits 1. -/
theorem exit_code_characterization_witness : runExitCode false [false] = 1 :=
  (exit_code_characterization false [false]).2 rfl (by decide)

theorem applyTimings_aux (k : String) (ts : List (String × ℚ)) :
    ∀ (m : String → Option ℚ),
      ts.foldl (fun m e => fun k2 => if k2 = e.1 then some (e.2 / 1000) else m k2) m k
        = match lastWrite ts k with
          | some v => some v
          | none => m k := by
  induction ts with
  | nil => intro m; simp [lastWrite]
  | cons e rest ih =>
    intro m
    rw [List.foldl_cons, ih]
    cases hl : lastWrite rest k with
    | some v => simp [lastWrite, hl]
    | none =>
      simp only [lastWrite, hl]
      by_cases he : e.1 = k
      · subst he
        simp
      · simp [he, show ¬(k = e.1) from fun h => he h.symm]

theorem applyTimings_eq_lastWrite (ts : List (String × ℚ)) (k : String) :
    applyTimings ts k = lastWrite ts k := by
  unfold applyTimings
  rw [applyTimings_aux k ts (fun _ => none)]
  cases hl : lastWrite ts k <;> simp

/-- Claim C9 counterexample: with retry budget 1, attempt 0 fails (would have
wall-clock duration 5) and attempt 1 passes (wall-clock duration 7).  Two
attempts finished, but only the successful attempt's duration is recorded:
the failed attempt's entry `("t", 5)` never reaches the recorder, so the
recorder does not record "each finished attempt". -/
theorem timing_each_attempt_counterexample :
    (retryLoop 1 failThenPass (fun _ => true)).1.length = 2 ∧
    recordedTimings "t" 1 failThenPass attemptDurs = [("t", 7)] ∧
    ("t", (5 : ℚ)) ∉ recordedTimings "t" 1 failThenPass attemptDurs := by
  refine ⟨by decide, by decide, by decide⟩

/-- Claim C9 (amended): the timing recorder records the wall-clock duration of
each *successfully* finished attempt keyed by the test identifier — at most
one attempt of a test passes (the loop stops at the first success), a passing
attempt's entry is recorded, failed attempts are not — and replaying the
`curTimings` assignments yields last-write-wins when the same key is reported
more than once. -/
theorem timing_recorder_amended (test : String) (n : Nat) (outcomes : Nat → Bool)
    (durs : Nat → ℚ) (ts : List (String × ℚ)) (k : String) :
    (recordedTimings test n outcomes durs).length ≤ 1 ∧
    ((retryLoop n outcomes (fun _ => true)).2 = true ↔
      ∃ e ∈ (retryLoop n outcomes (fun _ => true)).1, e.passed = true) ∧
    (∀ e ∈ (retryLoop n outcomes (fun _ => true)).1, e.passed = true →
      (test, durs e.idx) ∈ recordedTimings test n outcomes durs) ∧
    applyTimings ts k = lastWrite ts k := by
  obtain ⟨ha, hb⟩ := retryLoopFrom_passed_once n outcomes (fun _ => true) (n + 1) 0
  refine ⟨?_, hb, ?_, applyTimings_eq_lastWrite ts k⟩
  · unfold recordedTimings
    rw [List.length_map]
    exact ha
  · intro e he hp
    unfold recordedTimings
    exact List.mem_map_of_mem _ (List.mem_filter.mpr ⟨he, by simp [hp]⟩)

/-- Witness for the amended C9: the successful attempt's duration is
recorded. -/
theorem timing_recorder_amended_witness :
    ("t", (7 : ℚ)) ∈ recordedTimings "t" 1 failThenPass attemptDurs := by
  have h := timing_recorder_amended "t" 1 failThenPass attemptDurs [] "k"
  have hm : (⟨1, true, false, true⟩ : AttemptEvent)
      ∈ (retryLoop 1 failThenPass (fun _ => true)).1 := by decide
  have hx := h.2.2.1 _ hm rfl
  simpa [attemptDurs] using hx

/-! ## Lemmas about the semaphore machine -/

theorem countAcq_append (s : SemId) (l1 l2 : WorkerProg) :
    countAcq s (l1 ++ l2) = countAcq s l1 + countAcq s l2 := by
  induction l1 with
  | nil => simp [countAcq]
  | cons a l ih => cases a <;> simp [countAcq, ih, Nat.add_assoc]

theorem countRel_append (s : SemId) (l1 l2 : WorkerProg) :
    countRel s (l1 ++ l2) = countRel s l1 + countRel s l2 := by
  induction l1 with
  | nil => simp [countRel]
  | cons a l ih => cases a <;> simp [countRel, ih, Nat.add_assoc]

theorem countAcq_le_of_suffix (s : SemId) (q p : WorkerProg) (h : q <:+ p) :
    countAcq s q ≤ countAcq s p := by
  obtain ⟨pre, rfl⟩ := h
  rw [countAcq_append]
  omega

theorem counts_zero_of_bodyOK (s : SemId) (hs : s ≠ SemId.out) (p : WorkerProg)
    (hb : BodyOK p) : countAcq s p = 0 ∧ countRel s p = 0 := by
  induction p with
  | nil => simp [countAcq, countRel]
  | cons a l ih =>
    have hb2 : BodyOK l := fun x hx => hb x (List.mem_cons_of_mem a hx)
    obtain ⟨h1, h2⟩ := ih hb2
    cases a with
    | acq s0 =>
      have hout : s0 = SemId.out := hb (Act.acq s0) (by simp) s0 rfl
      have hne : s0 ≠ s := fun hh => hs (hh.symm.trans hout)
      simp [countAcq, countRel, h1, h2, hne]
    | rel s0 =>
      have hout : s0 = SemId.out := hb (Act.rel s0) (by simp) s0 rfl
      have hne : s0 ≠ s := fun hh => hs (hh.symm.trans hout)
      simp [countAcq, countRel, h1, h2, hne]
    | emit m => simp [countAcq, countRel, h1, h2]

theorem WFfor_tail (s : SemId) (a : Act) (r : WorkerProg) (h : WFfor s (a :: r)) :
    WFfor s r := by
  intro q hq
  apply h
  rw [List.mem_tails] at hq ⊢
  exact hq.trans (List.suffix_cons a r)

theorem WFfor_of_countAcq_zero (s : SemId) (p : WorkerProg)
    (h1 : countAcq s p = 0) : WFfor s p := by
  intro q hq
  rw [List.mem_tails] at hq
  have := countAcq_le_of_suffix s q p hq
  omega

theorem heldSum_append (s : SemId) (l1 l2 : List (String × WorkerProg)) :
    heldSum s (l1 ++ l2) = heldSum s l1 + heldSum s l2 := by
  simp [heldSum]

theorem heldSum_cons (s : SemId) (w : String × WorkerProg)
    (l : List (String × WorkerProg)) :
    heldSum s (w :: l) = heldBy s w.2 + heldSum s l := by
  simp [heldSum]

theorem WStep_held_balance (s : SemId) (f f2 : SemId → Nat) (p p2 : WorkerProg)
    (hw : WStep f p f2 p2) (hwf : WFfor s p) :
    WFfor s p2 ∧ f2 s + heldBy s p2 = f s + heldBy s p := by
  have hself : p ∈ p.tails := (List.mem_tails _ _).mpr (List.suffix_refl p)
  cases hw with
  | acq s0 rest h =>
    refine ⟨WFfor_tail s _ p2 hwf, ?_⟩
    have hwhole := hwf _ hself
    by_cases hss : s0 = s
    · subst hss
      simp [countAcq, countRel] at hwhole
      simp [setAvail, heldBy, countAcq, countRel]
      omega
    · have hss2 : ¬(s = s0) := fun hh => hss hh.symm
      simp [setAvail, hss2, heldBy, countAcq, countRel, hss]
  | rel s0 rest =>
    refine ⟨WFfor_tail s _ p2 hwf, ?_⟩
    have hrest : p2 ∈ (Act.rel s0 :: p2).tails :=
      (List.mem_tails _ _).mpr (List.suffix_cons _ p2)
    have hwr := hwf _ hrest
    by_cases hss : s0 = s
    · subst hss
      simp [setAvail, heldBy, countAcq, countRel]
      omega
    · have hss2 : ¬(s = s0) := fun hh => hss hh.symm
      simp [setAvail, hss2, heldBy, countAcq, countRel, hss]
  | emit m rest =>
    refine ⟨WFfor_tail s _ p2 hwf, ?_⟩
    simp only [heldBy, countAcq, countRel]

theorem SemInv_step (s : SemId) (cap : Nat) (st st2 : SysState)
    (hs : SysStep st st2) (hinv : SemInv s cap st) : SemInv s cap st2 := by
  obtain ⟨hwf, hsum⟩ := hinv
  cases hs with
  | mk f f2 t p p2 pre post hw =>
    have hwp : WFfor s p := hwf (t, p) (by simp)
    obtain ⟨hwf2, hbal⟩ := WStep_held_balance s f f2 p p2 hw hwp
    refine ⟨?_, ?_⟩
    · intro w hw2
      rcases List.mem_append.mp hw2 with h | h
      · exact hwf w (List.mem_append.mpr (Or.inl h))
      · rcases List.mem_cons.mp h with h | h
        · subst h
          exact hwf2
        · exact hwf w (by simp [h])
    · have hsum2 := hsum
      simp only [heldSum_append, heldSum_cons] at hsum2 ⊢
      omega

theorem SemInv_reach (s : SemId) (cap : Nat) (init st : SysState)
    (hr : Reach init st) (hinv : SemInv s cap init) : SemInv s cap st := by
  induction hr with
  | refl => exact hinv
  | tail _ h2 ih => exact SemInv_step s cap _ _ h2 ih

theorem holdersCount_le_heldSum (s : SemId) (ws : List (String × WorkerProg)) :
    holdersCount s ws ≤ heldSum s ws := by
  induction ws with
  | nil => simp [holdersCount, heldSum]
  | cons w l ih =>
    simp only [holdersCount, heldSum, List.filter_cons, List.map_cons,
      List.sum_cons] at ih ⊢
    by_cases h : 0 < heldBy s w.2
    · rw [if_pos (decide_eq_true h)]
      simp only [List.length_cons]
      omega
    · rw [if_neg (by simpa using h)]
      omega

theorem progs_tails_step (f : String → WorkerProg) (st st2 : SysState)
    (hs : SysStep st st2)
    (hinv : ∀ w ∈ st.workers, w.2 ∈ (f w.1).tails) :
    ∀ w ∈ st2.workers, w.2 ∈ (f w.1).tails := by
  cases hs with
  | mk fa fb t p p2 pre post hw =>
    intro w hw2
    rcases List.mem_append.mp hw2 with h | h
    · exact hinv w (List.mem_append.mpr (Or.inl h))
    rcases List.mem_cons.mp h with h | h
    · subst h
      have hp := hinv (t, p) (by simp)
      have hex : ∃ a, p = a :: p2 := by cases hw <;> exact ⟨_, rfl⟩
      obtain ⟨a, rfl⟩ := hex
      rw [List.mem_tails] at hp ⊢
      exact (List.suffix_cons a p2).trans hp
    · exact hinv w (by simp [h])

theorem progs_tails_reach (f : String → WorkerProg) (init st : SysState)
    (hr : Reach init st) (hinv : ∀ w ∈ init.workers, w.2 ∈ (f w.1).tails) :
    ∀ w ∈ st.workers, w.2 ∈ (f w.1).tails := by
  induction hr with
  | refl => exact hinv
  | tail _ h2 ih => exact progs_tails_step f _ _ h2 ih

theorem length_filter_le_of_imp {α : Type} (l : List α) (p q : α → Bool)
    (h : ∀ a ∈ l, p a = true → q a = true) :
    (l.filter p).length ≤ (l.filter q).length := by
  induction l with
  | nil => simp
  | cons a l ih =>
    have ih2 := ih (fun a ha => h a (List.mem_cons_of_mem _ ha))
    rw [List.filter_cons, List.filter_cons]
    by_cases hp : p a = true
    · rw [if_pos hp, if_pos (h a (by simp) hp)]
      simp only [List.length_cons]
      omega
    · rw [if_neg hp]
      by_cases hq : q a = true
      · rw [if_pos hq]
        simp only [List.length_cons]
        omega
      · rw [if_neg hq]
        exact ih2

theorem suffix_split {α : Type} (q ys : List α) :
    ∀ xs : List α, q <:+ xs ++ ys →
      q <:+ ys ∨ ∃ r, r <:+ xs ∧ q = r ++ ys := by
  intro xs
  induction xs with
  | nil => intro h; exact Or.inl (by simpa using h)
  | cons a xs ih =>
    intro h
    rw [List.cons_append] at h
    rcases List.suffix_cons_iff.mp h with h | h
    · exact Or.inr ⟨a :: xs, List.suffix_refl _, by simp [h]⟩
    · rcases ih h with h | ⟨r, hr, rfl⟩
      · exact Or.inl h
      · exact Or.inr ⟨r, hr.trans (List.suffix_cons a xs), rfl⟩

theorem workerProg_legacy_eq (body : WorkerProg) (t : String)
    (hl : isLegacy t = true) :
    workerProg body t
      = Act.acq (SemId.dir (dirNameOf t)) :: Act.acq SemId.glob ::
          (body ++ [Act.rel SemId.glob, Act.rel (SemId.dir (dirNameOf t))]) := by
  simp [workerProg, hl]

theorem workerProg_nonlegacy_eq (body : WorkerProg) (t : String)
    (hl : isLegacy t = false) :
    workerProg body t = Act.acq SemId.glob :: (body ++ [Act.rel SemId.glob]) := by
  simp [workerProg, hl]

theorem legacy_suffix_facts (body : WorkerProg) (t : String) (hb : BodyOK body)
    (hl : isLegacy t = true) (q : WorkerProg)
    (hq : q ∈ (workerProg body t).tails) :
    heldBy SemId.glob q ≤ heldBy (SemId.dir (dirNameOf t)) q ∧
    countAcq (SemId.dir (dirNameOf t)) q ≤ countRel (SemId.dir (dirNameOf t)) q := by
  have hd : (SemId.dir (dirNameOf t)) ≠ SemId.out := fun h => SemId.noConfusion h
  have hg : SemId.glob ≠ SemId.out := fun h => SemId.noConfusion h
  obtain ⟨hbd1, hbd2⟩ := counts_zero_of_bodyOK (SemId.dir (dirNameOf t)) hd body hb
  obtain ⟨hbg1, hbg2⟩ := counts_zero_of_bodyOK SemId.glob hg body hb
  rw [List.mem_tails, workerProg_legacy_eq body t hl] at hq
  rcases List.suffix_cons_iff.mp hq with h | hq
  · subst h
    simp [heldBy, countAcq, countRel, countAcq_append, countRel_append,
      hbd1, hbd2, hbg1, hbg2]
  rcases List.suffix_cons_iff.mp hq with h | hq
  · subst h
    simp [heldBy, countAcq, countRel, countAcq_append, countRel_append,
      hbd1, hbd2, hbg1, hbg2]
  rcases suffix_split q _ body hq with h | ⟨r, hr, rfl⟩
  · rcases List.suffix_cons_iff.mp h with h1 | h1
    · subst h1
      simp [heldBy, countAcq, countRel]
    rcases List.suffix_cons_iff.mp h1 with h2 | h2
    · subst h2
      simp [heldBy, countAcq, countRel]
    · have hnil : q = [] := List.suffix_nil.mp h2
      subst hnil
      simp [heldBy, countAcq, countRel]
  · have hbr : BodyOK r := fun a ha s hsa => hb a (hr.subset ha) s hsa
    obtain ⟨hr1, hr2⟩ := counts_zero_of_bodyOK _ hd r hbr
    obtain ⟨hr3, hr4⟩ := counts_zero_of_bodyOK _ hg r hbr
    simp [heldBy, countAcq, countRel, countAcq_append, countRel_append,
      hr1, hr2, hr3, hr4]

theorem workerProg_dir_counts_legacy (body : WorkerProg) (t : String)
    (hb : BodyOK body) (hl : isLegacy t = true) :
    countAcq (SemId.dir (dirNameOf t)) (workerProg body t) = 1 ∧
    countRel (SemId.dir (dirNameOf t)) (workerProg body t) = 1 := by
  have hd : (SemId.dir (dirNameOf t)) ≠ SemId.out := fun h => SemId.noConfusion h
  obtain ⟨hb1, hb2⟩ := counts_zero_of_bodyOK _ hd body hb
  rw [workerProg_legacy_eq body t hl]
  simp [countAcq, countRel, countAcq_append, countRel_append, hb1, hb2]

theorem workerProg_dir_counts_zero (body : WorkerProg) (t d : String)
    (hb : BodyOK body) (hnd : isLegacy t = false ∨ dirNameOf t ≠ d) :
    countAcq (SemId.dir d) (workerProg body t) = 0 ∧
    countRel (SemId.dir d) (workerProg body t) = 0 := by
  have hd : (SemId.dir d) ≠ SemId.out := fun h => SemId.noConfusion h
  obtain ⟨hb1, hb2⟩ := counts_zero_of_bodyOK (SemId.dir d) hd body hb
  rcases hnd with h | h
  · rw [workerProg_nonlegacy_eq body t h]
    simp [countAcq, countRel, countAcq_append, countRel_append, hb1, hb2]
  · cases hl : isLegacy t with
    | false =>
      rw [workerProg_nonlegacy_eq body t hl]
      simp [countAcq, countRel, countAcq_append, countRel_append, hb1, hb2]
    | true =>
      rw [workerProg_legacy_eq body t hl]
      have hne : SemId.dir (dirNameOf t) ≠ SemId.dir d := by
        intro hh
        injection hh with hh2
        exact h hh2
      simp [countAcq, countRel, countAcq_append, countRel_append, hb1, hb2, hne]

theorem heldBy_workerProg_dir (body : WorkerProg) (t d : String) (hb : BodyOK body) :
    heldBy (SemId.dir d) (workerProg body t) = 0 := by
  by_cases hcase : isLegacy t = true ∧ dirNameOf t = d
  · obtain ⟨hl, hdir⟩ := hcase
    subst hdir
    obtain ⟨h1, h2⟩ := workerProg_dir_counts_legacy body t hb hl
    simp [heldBy, h1, h2]
  · have hnd : isLegacy t = false ∨ dirNameOf t ≠ d := by
      cases hl : isLegacy t with
      | false => exact Or.inl rfl
      | true => exact Or.inr (fun hh => hcase ⟨hl, hh⟩)
    obtain ⟨h1, h2⟩ := workerProg_dir_counts_zero body t d hb hnd
    simp [heldBy, h1, h2]

theorem initState_dir_heldSum (concurrency : Nat) (bodies : String → WorkerProg)
    (tests : List String) (d : String) (hb : ∀ t, BodyOK (bodies t)) :
    heldSum (SemId.dir d) (initState concurrency bodies tests).workers = 0 := by
  unfold initState heldSum
  rw [List.map_map]
  apply List.sum_eq_zero
  intro x hx
  rw [List.mem_map] at hx
  obtain ⟨t, ht, rfl⟩ := hx
  exact heldBy_workerProg_dir (bodies t) t d (hb t)

theorem initState_dir_WF (concurrency : Nat) (bodies : String → WorkerProg)
    (tests : List String) (d : String) (hb : ∀ t, BodyOK (bodies t)) :
    ∀ w ∈ (initState concurrency bodies tests).workers,
      WFfor (SemId.dir d) w.2 := by
  intro w hw
  unfold initState at hw
  rw [List.mem_map] at hw
  obtain ⟨t, ht, rfl⟩ := hw
  by_cases hcase : isLegacy t = true ∧ dirNameOf t = d
  · obtain ⟨hl, hdir⟩ := hcase
    subst hdir
    intro q hq
    exact (legacy_suffix_facts (bodies t) t (hb t) hl q hq).2
  · have hnd : isLegacy t = false ∨ dirNameOf t ≠ d := by
      cases hl : isLegacy t with
      | false => exact Or.inl rfl
      | true => exact Or.inr (fun hh => hcase ⟨hl, hh⟩)
    exact WFfor_of_countAcq_zero _ _
      (workerProg_dir_counts_zero (bodies t) t d (hb t) hnd).1

/-! ## Claims about the concurrency scheduler and output aggregator -/

/-- Claim C7: for every test under the legacy root `test/integration`, the
per-directory size-1 permit is acquired before the global concurrency permit
and released after the global permit (the worker skeleton is exactly
directory-acquire, global-acquire, body, global-release, directory-release),
and consequently in every reachable scheduler state at most one legacy worker
of any fixed directory is executing (holding the global permit): two legacy
tests sharing a parent directory never execute concurrently. -/
theorem legacy_directory_exclusive (bodies : String → WorkerProg)
    (tests : List String) (concurrency : Nat) (d : String) (st : SysState)
    (hb : ∀ t, BodyOK (bodies t))
    (hr : Reach (initState concurrency bodies tests) st) :
    (∀ t, isLegacy t = true →
      workerProg (bodies t) t
        = Act.acq (SemId.dir (dirNameOf t)) :: Act.acq SemId.glob ::
            (bodies t ++ [Act.rel SemId.glob, Act.rel (SemId.dir (dirNameOf t))])) ∧
    execCount d st.workers ≤ 1 := by
  refine ⟨fun t hl => workerProg_legacy_eq (bodies t) t hl, ?_⟩
  have hinv0 : SemInv (SemId.dir d) 1 (initState concurrency bodies tests) := by
    refine ⟨initState_dir_WF concurrency bodies tests d hb, ?_⟩
    rw [initState_dir_heldSum concurrency bodies tests d hb]
    rfl
  obtain ⟨hwfR, hsumR⟩ := SemInv_reach (SemId.dir d) 1 _ st hr hinv0
  have htails0 : ∀ w ∈ (initState concurrency bodies tests).workers,
      w.2 ∈ ((fun t2 => workerProg (bodies t2) t2) w.1).tails := by
    intro w hw
    unfold initState at hw
    rw [List.mem_map] at hw
    obtain ⟨t, ht, rfl⟩ := hw
    exact (List.mem_tails _ _).mpr (List.suffix_refl _)
  have htails := progs_tails_reach (fun t2 => workerProg (bodies t2) t2) _ st hr htails0
  have hmono : execCount d st.workers ≤ holdersCount (SemId.dir d) st.workers := by
    unfold execCount holdersCount
    apply length_filter_le_of_imp
    intro w hw hp
    simp only [Bool.and_eq_true, decide_eq_true_eq] at hp
    obtain ⟨⟨hleg, hdir⟩, hglob⟩ := hp
    have hdir2 : dirNameOf w.1 = d := by simpa using hdir
    have hq := htails w hw
    have hcouple := (legacy_suffix_facts (bodies w.1) w.1 (hb w.1) hleg w.2 hq).1
    rw [hdir2] at hcouple
    simp only [decide_eq_true_eq]
    omega
  have hhold := holdersCount_le_heldSum (SemId.dir d) st.workers
  omega

/-- Witness for C7: the initial one-legacy-test system is reachable in zero
steps and has at most one executing worker in its directory. -/
theorem legacy_directory_exclusive_witness :
    execCount "test/integration/app"
      (initState 2 (fun _ => []) ["test/integration/app/x.test.js"]).workers ≤ 1 :=
  (legacy_directory_exclusive (fun _ => []) ["test/integration/app/x.test.js"] 2
    "test/integration/app" _
    (fun _ a ha => absurd ha (List.not_mem_nil a))
    Relation.ReflTransGen.refl).2

theorem foldl_handleOutput_hidden (cs : List (String × String)) :
    ∀ st : List (String × String) × List String,
      cs.foldl (fun st c =>
        let r := handleOutput true st.1 c
        (r.1, st.2 ++ r.2)) st = (st.1 ++ cs, st.2) := by
  induction cs with
  | nil => intro st; simp
  | cons c cs ih =>
    intro st
    rw [List.foldl_cons, ih]
    simp [handleOutput]

theorem attemptBuffer_hidden (cs : List (String × String)) :
    attemptBuffer true cs = (cs, []) := by
  unfold attemptBuffer
  rw [foldl_handleOutput_hidden cs ([], [])]
  simp

theorem blockEmits_all_emit (test : String) (buf : List (String × String)) :
    ∀ a ∈ blockEmits test buf, ∃ m, a = Act.emit m := by
  intro a ha
  unfold blockEmits at ha
  rcases List.mem_cons.mp ha with h | h
  · exact ⟨_, h⟩
  rcases List.mem_append.mp h with h | h
  · obtain ⟨c, hc, rfl⟩ := List.mem_map.mp h
    exact ⟨_, rfl⟩
  · simp at h
    exact ⟨_, h⟩

/-- Claim C8: in hide-output mode every chunk is buffered in capture order
with nothing printed during the attempt; a successful attempt flushes nothing
(the buffer is discarded) and a failed attempt flushes exactly one delimited
block — start marker, buffered chunks in capture order, end marker — whose
inner actions are all emissions between acquiring and releasing the exclusive
size-1 print permit; and in every reachable scheduler state at most one
worker holds the print permit, so blocks of concurrently running tests are
never interleaved at the sub-block level. -/
theorem output_block_exclusive (test : String) (cs buf : List (String × String))
    (init st : SysState)
    (hwf : ∀ w ∈ init.workers, WFfor SemId.out w.2)
    (havail : init.avail SemId.out = 1)
    (hheld : heldSum SemId.out init.workers = 0)
    (hr : Reach init st) :
    attemptBuffer true cs = (cs, []) ∧
    exitFlush true test buf false = [] ∧
    exitFlush false test buf false = [] ∧
    exitFlush false test buf true = [] ∧
    exitFlush true test buf true
      = Act.acq SemId.out :: (blockEmits test buf ++ [Act.rel SemId.out]) ∧
    (∀ a ∈ blockEmits test buf, ∃ m, a = Act.emit m) ∧
    holdersCount SemId.out st.workers ≤ 1 := by
  obtain ⟨hwfR, hsumR⟩ := SemInv_reach SemId.out 1 init st hr
    ⟨hwf, by rw [havail, hheld]⟩
  have hhold := holdersCount_le_heldSum SemId.out st.workers
  exact ⟨attemptBuffer_hidden cs, rfl, rfl, rfl, rfl,
    blockEmits_all_emit test buf, by omega⟩

/-- Witness for C8 at a concrete one-worker system. -/
theorem output_block_exclusive_witness :
    holdersCount SemId.out
      (initState 2 (fun _ => []) ["a/x.test.js"]).workers ≤ 1 :=
  (output_block_exclusive "a/x.test.js" [] []
    (initState 2 (fun _ => []) ["a/x.test.js"]) _
    (by
      intro w hw
      have hw2 : w = ("a/x.test.js", workerProg [] "a/x.test.js") :=
        List.mem_singleton.mp hw
      subst hw2
      unfold WFfor
      decide)
    rfl (by decide) Relation.ReflTransGen.refl).2.2.2.2.2.2

end RunTests
